import Mathlib

/-!
Verification of the NSx continuous-data reader and the spike-detection
pipeline (continuousdata.py, spikedetect.py) against their specification.

Numeric conventions: Python floats are modelled as rationals; int16 samples
are modelled as integers, and where int16 overflow can occur (negating the
sample matrix) the wraparound is explicit.  Timestamps are rational numbers
of seconds relative to an arbitrary epoch; a datetime plus a timedelta of
s seconds is rational addition.  Loops over a seekable file are modelled as
recursion over the list of data packets the file contains; the is_eof flag
returned by scan_next_packet is true exactly on the last packet, so the
while-not-is_eof loops consume the packet list to its end.
-/

namespace SpikeSorting

/-- One data packet of an NSx file as reported by scan_next_packet:
its sample count and the value of its sample-offset field. -/
structure Packet where
  nSamples : ℕ
  sampleOffset : ℕ
deriving DecidableEq, Repr

/-- The metadata part of one BlackrockContinuousData object: the fields of
the constructor (continuousdata.py lines 147-161) that the timing and
budget claims are about. -/
structure Recording where
  timeOrigin : ℚ
  packetIndex : ℕ
  packetSampleOffset : ℕ
  nSamples : ℤ
deriving DecidableEq, Repr

/-- Time-origin logic of the BlackrockContinuousData constructor
(continuousdata.py lines 156-159): a strictly positive packet sample offset
advances the time origin by offset / sample_rate seconds. -/
def mkTimeOrigin (t : ℚ) (off : ℕ) (sr : ℚ) : ℚ :=
  if 0 < off then t + (off : ℚ) / sr else t

/-- The while-loop of fromfile for packet_mode = all (continuousdata.py
lines 194-211), including the faulty budget update on line 209, which
subtracts the samples just read from n_samples_read instead of adding
them.  Arguments after the packet list: the running n_samples_read, the
packet index about to be scanned, the running time origin, and the sample
count of the previously scanned packet. -/
def readAllLoop (sr : ℚ) (nsamp : ℤ) :
    List Packet → ℤ → ℕ → ℚ → ℕ → List Recording
  | [], _, _, _, _ => []
  | p :: rest, nread, pidx, t, prev =>
    if nread < nsamp then
      let t2 := if 0 < pidx ∧ p.sampleOffset = 0 then t + (prev : ℚ) / sr else t
      let toRead : ℤ := min (nsamp - nread) (p.nSamples : ℤ)
      { timeOrigin := mkTimeOrigin t2 p.sampleOffset sr,
        packetIndex := pidx,
        packetSampleOffset := p.sampleOffset,
        nSamples := toRead }
        :: readAllLoop sr nsamp rest (nread - toRead) (pidx + 1) t2 p.nSamples
    else []

/-- fromfile with packet_mode = all (continuousdata.py lines 189-212). -/
def fromfileAll (sr t0 : ℚ) (packets : List Packet) (nsamp : ℤ) :
    List Recording :=
  readAllLoop sr nsamp packets 0 0 t0 0

/-- Total number of samples across the returned recordings. -/
def totalSamplesRead (rs : List Recording) : ℤ :=
  (rs.map Recording.nSamples).sum

/-- The while-loop of fromfile for packet_mode = last (continuousdata.py
lines 220-230): scan every packet, applying the time correction to each
non-first packet whose sample-offset field is zero; return the running
time origin, the final packet index and the last packet. -/
def lastLoop (sr : ℚ) : List Packet → ℕ → ℚ → ℕ → ℚ × ℕ × Packet
  | [], pidx, t, _ => (t, pidx, ⟨0, 0⟩)
  | p :: rest, pidx, t, prev =>
    let t2 := if 0 < pidx ∧ p.sampleOffset = 0 then t + (prev : ℚ) / sr else t
    match rest with
    | [] => (t2, pidx, p)
    | _ :: _ => lastLoop sr rest (pidx + 1) t2 p.nSamples

/-- fromfile with packet_mode = last (continuousdata.py lines 219-242):
scan to the last packet, then build the recording from it. -/
def fromfileLast (sr t0 : ℚ) (nsamp : ℤ) (packets : List Packet) :
    Recording :=
  let r := lastLoop sr packets 0 t0 0
  { timeOrigin := mkTimeOrigin r.1 r.2.2.sampleOffset sr,
    packetIndex := r.2.1,
    packetSampleOffset := r.2.2.sampleOffset,
    nSamples := min nsamp (r.2.2.nSamples : ℤ) }

/-- Closed form of the accumulated time correction: given the sample count
of the packet preceding the list, add the previous sample count for every
packet whose sample-offset field is zero, accumulating along the list. -/
def corrFrom (prev : ℕ) : List Packet → ℕ
  | [] => 0
  | p :: rest => (if p.sampleOffset = 0 then prev else 0) + corrFrom p.nSamples rest

theorem lastLoop_time (sr : ℚ) :
    ∀ (ps : List Packet) (pidx : ℕ) (t : ℚ) (prev : ℕ), 1 ≤ pidx →
      (lastLoop sr ps pidx t prev).1 = t + (corrFrom prev ps : ℚ) / sr := by
  intro ps
  induction ps with
  | nil => intro pidx t prev _; simp [lastLoop, corrFrom]
  | cons p rest ih =>
    intro pidx t prev hpidx
    have hpos : 0 < pidx := hpidx
    by_cases hoff : p.sampleOffset = 0
    · have hsimp : (if 0 < pidx ∧ p.sampleOffset = 0 then t + (prev : ℚ) / sr else t)
          = t + (prev : ℚ) / sr := by simp [hpos, hoff]
      cases rest with
      | nil => simp [lastLoop, corrFrom, hoff, hpos]
      | cons q rest2 =>
        have step : lastLoop sr (p :: q :: rest2) pidx t prev
            = lastLoop sr (q :: rest2) (pidx + 1)
                (if 0 < pidx ∧ p.sampleOffset = 0 then t + (prev : ℚ) / sr else t)
                p.nSamples := rfl
        rw [step, hsimp, ih (pidx + 1) (t + (prev : ℚ) / sr) p.nSamples (by omega)]
        simp only [corrFrom, hoff, if_pos]
        push_cast
        rw [add_div]
        ring
    · have hsimp : (if 0 < pidx ∧ p.sampleOffset = 0 then t + (prev : ℚ) / sr else t)
          = t := by simp [hoff]
      cases rest with
      | nil => simp [lastLoop, hsimp, corrFrom, hoff]
      | cons q rest2 =>
        have step : lastLoop sr (p :: q :: rest2) pidx t prev
            = lastLoop sr (q :: rest2) (pidx + 1)
                (if 0 < pidx ∧ p.sampleOffset = 0 then t + (prev : ℚ) / sr else t)
                p.nSamples := rfl
        rw [step, hsimp, ih (pidx + 1) t p.nSamples (by omega)]
        simp [corrFrom, hoff]

/-- Claim C2: in packet_mode = last, each non-first packet whose
sample-offset field is zero advances the running time origin by
previous_packet_n_samples / sample_rate seconds, accumulating across
packets; in particular, on a two-packet file whose second packet carries a
zero sample-offset field, the returned recording reports
time_origin = header time origin + first_packet_n_samples / sample_rate. -/
theorem fromfile_last_time_correction :
    (∀ (sr t0 : ℚ) (p : Packet) (rest : List Packet),
      (lastLoop sr (p :: rest) 0 t0 0).1 = t0 + (corrFrom p.nSamples rest : ℚ) / sr)
    ∧ (∀ (sr t0 : ℚ) (nsamp : ℤ) (o0 n0 n1 : ℕ),
      (fromfileLast sr t0 nsamp [⟨n0, o0⟩, ⟨n1, 0⟩]).timeOrigin
        = t0 + (n0 : ℚ) / sr) := by
  constructor
  · intro sr t0 p rest
    cases rest with
    | nil => simp [lastLoop, corrFrom]
    | cons q rest2 =>
      have step : lastLoop sr (p :: q :: rest2) 0 t0 0
          = lastLoop sr (q :: rest2) 1
              (if 0 < 0 ∧ p.sampleOffset = 0 then t0 + ((0 : ℕ) : ℚ) / sr else t0)
              p.nSamples := rfl
      rw [step]
      simp only [lt_irrefl, false_and, if_false]
      exact lastLoop_time sr (q :: rest2) 1 t0 p.nSamples le_rfl
  · intro sr t0 nsamp o0 n0 n1
    simp [fromfileLast, lastLoop, mkTimeOrigin]

/-- Claim C1 (code bug): with packet_mode = all, a file of two 3-sample
packets read with a budget of max_samples = 4 yields recordings totalling
6 samples, exceeding the budget: line 209 of continuousdata.py decrements
n_samples_read instead of incrementing it, so the loop guard
n_samples_read < n_samples never stops the scan. -/
theorem read_all_ignores_budget :
    totalSamplesRead (fromfileAll 30000 0 [⟨3, 0⟩, ⟨3, 3⟩] 4) = 6 ∧
    ¬ totalSamplesRead (fromfileAll 30000 0 [⟨3, 0⟩, ⟨3, 3⟩] 4) ≤ 4 := by
  have h : totalSamplesRead (fromfileAll 30000 0 [⟨3, 0⟩, ⟨3, 3⟩] 4) = 6 := by
    norm_num [fromfileAll, readAllLoop, totalSamplesRead, mkTimeOrigin]
  exact ⟨h, by rw [h]; norm_num⟩

/-- The fields of a parsed 66-byte extended channel header that channel
resolution consults (continuousdata.py ChannelInfo). -/
structure ChannelInfo where
  electrode_id : ℤ
  label : String := ""
deriving DecidableEq, Repr, Inhabited

/-- The exceptions channel resolution can raise: the ValueError naming the
originally requested values (lines 352 and 359) and the IndexError a
Python list subscript raises when the index is out of range on both ends. -/
inductive SelError where
  | valueError (requested : List ℤ)
  | indexError
deriving DecidableEq, Repr

/-- Python list subscripting: a negative index wraps around by the list
length; an index out of range on both ends is an IndexError (none). -/
def pyGet (l : List ChannelInfo) (i : ℤ) : Option ChannelInfo :=
  if 0 ≤ i then
    if i < l.length then some (l.getD i.toNat default) else none
  else
    if 0 ≤ i + l.length then some (l.getD (i + l.length).toNat default) else none

/-- Subscript a Python list at each index in turn, failing on the first
IndexError (models a list comprehension that subscripts the list). -/
def pyGetList (l : List ChannelInfo) (idxs : List ℤ) : Option (List ChannelInfo) :=
  idxs.mapM (pyGet l)

/-- The effective subscript position used by pyGet for an in-range index:
negative indices wrap around by the list length. -/
def pyWrapIdx (n : ℕ) (i : ℤ) : ℕ :=
  if i < 0 then (i + n).toNat else i.toNat

/-- The electrode ids of the channels stored in the file, in file order
(continuousdata.py line 348). -/
def electrodesInFile (info : List ChannelInfo) : List ℤ :=
  info.map (fun ci => ci.electrode_id)

/-- The requested electrodes that are present in the file, in request
order (continuousdata.py line 349). -/
def keptElectrodes (es : List ℤ) (info : List ChannelInfo) : List ℤ :=
  es.filter (fun e => decide (e ∈ electrodesInFile info))

/-- The in-file channel index of each surviving requested electrode
(continuousdata.py line 350): list.index finds the first occurrence. -/
def electrodeChannels (es : List ℤ) (info : List ChannelInfo) : List ℤ :=
  (keptElectrodes es info).map (fun e => ((electrodesInFile info).indexOf e : ℤ))

/-- BlackrockContinuousData._validate_sel_channels (continuousdata.py
lines 342-367): resolve the requested electrodes or channels into parallel
(channels, electrodes, channels_info) lists.  None or an empty list means
no selection.  The electrode branch intersects the request with the
electrode ids in file, in request order, and maps each survivor to the
first in-file channel index carrying it; the channel branch keeps every
requested index below the in-file channel count; with no selection, all
in-file channels are used.  An empty resolved list raises ValueError
naming the original request; the channels_info subscripts may raise
IndexError. -/
def validate_sel_channels (channels electrodes : Option (List ℤ))
    (nChannelsInFile : ℕ) (channelsInfo : List ChannelInfo) :
    Except SelError (List ℤ × List ℤ × List ChannelInfo) :=
  if electrodes.getD [] ≠ [] then
    let es := electrodes.getD []
    let chans := electrodeChannels es channelsInfo
    if chans = [] then .error (.valueError es)
    else
      match pyGetList channelsInfo chans with
      | some ti => .ok (chans, keptElectrodes es channelsInfo, ti)
      | none => .error .indexError
  else if channels.getD [] ≠ [] then
    let cs := channels.getD []
    let chans := cs.filter (fun c => decide (c < (nChannelsInFile : ℤ)))
    match pyGetList channelsInfo chans with
    | some sel =>
      if chans = [] then .error (.valueError cs)
      else .ok (chans, sel.map (fun ci => ci.electrode_id), sel)
    | none => .error .indexError
  else
    let chans : List ℤ := (List.range nChannelsInFile).map (fun c => (c : ℤ))
    match pyGetList channelsInfo chans with
    | some sel => .ok (chans, sel.map (fun ci => ci.electrode_id), sel)
    | none => .error .indexError

theorem pyGet_of_inRange (l : List ChannelInfo) (i : ℤ)
    (hlo : -(l.length : ℤ) ≤ i) (hhi : i < l.length) :
    pyGet l i = some (l.getD (pyWrapIdx l.length i) default) := by
  by_cases h0 : 0 ≤ i
  · simp only [pyGet, pyWrapIdx, if_pos h0, if_pos hhi, if_neg (by omega : ¬ i < 0)]
  · simp only [pyGet, pyWrapIdx, if_neg h0, if_pos (by omega : 0 ≤ i + (l.length : ℤ)),
      if_pos (by omega : i < 0)]

theorem pyGetList_of_inRange (l : List ChannelInfo) :
    ∀ idxs : List ℤ, (∀ i ∈ idxs, -(l.length : ℤ) ≤ i ∧ i < l.length) →
      pyGetList l idxs = some (idxs.map (fun i => l.getD (pyWrapIdx l.length i) default)) := by
  intro idxs
  induction idxs with
  | nil => intro _; rfl
  | cons i rest ih =>
    intro h
    have hi := h i (List.mem_cons_self i rest)
    have hrest := ih (fun j hj => h j (List.mem_cons_of_mem i hj))
    simp only [pyGetList, List.mapM_cons] at hrest ⊢
    rw [pyGet_of_inRange l i hi.1 hi.2]
    simp only [List.map_cons]
    rw [hrest]
    rfl

theorem keptElectrodes_mem {es : List ℤ} {info : List ChannelInfo} {e : ℤ}
    (he : e ∈ keptElectrodes es info) : e ∈ electrodesInFile info := by
  have := List.of_mem_filter he
  simpa using this

theorem keptElectrodes_indexOf_lt {es : List ℤ} {info : List ChannelInfo} {e : ℤ}
    (he : e ∈ keptElectrodes es info) :
    (electrodesInFile info).indexOf e < info.length := by
  have h1 : (electrodesInFile info).indexOf e < (electrodesInFile info).length :=
    List.indexOf_lt_length.mpr (keptElectrodes_mem he)
  simpa [electrodesInFile] using h1

theorem electrodeChannels_pyGetList (es : List ℤ) (info : List ChannelInfo) :
    pyGetList info (electrodeChannels es info)
      = some ((keptElectrodes es info).map
          (fun e => info.getD ((electrodesInFile info).indexOf e) default)) := by
  have hbound : ∀ i ∈ electrodeChannels es info,
      -(info.length : ℤ) ≤ i ∧ i < info.length := by
    intro i hi
    rcases List.mem_map.mp (by simpa [electrodeChannels] using hi) with ⟨e, he, rfl⟩
    have h1 := keptElectrodes_indexOf_lt he
    have h0 : (0 : ℤ) ≤ ((electrodesInFile info).indexOf e : ℤ) := Int.ofNat_nonneg _
    exact ⟨by omega, by exact_mod_cast h1⟩
  rw [pyGetList_of_inRange info (electrodeChannels es info) hbound]
  rw [electrodeChannels, List.map_map]
  rfl

theorem validate_electrodes_eval (cha : Option (List ℤ)) (es : List ℤ)
    (n : ℕ) (info : List ChannelInfo) (hne : es ≠ []) :
    validate_sel_channels cha (some es) n info =
      if keptElectrodes es info = [] then .error (.valueError es)
      else .ok (electrodeChannels es info, keptElectrodes es info,
        (keptElectrodes es info).map
          (fun e => info.getD ((electrodesInFile info).indexOf e) default)) := by
  have hee : (some es).getD [] ≠ [] := hne
  rw [validate_sel_channels, if_pos hee]
  simp only [Option.getD_some]
  by_cases hk : keptElectrodes es info = []
  · rw [if_pos (by rw [electrodeChannels, hk]; rfl), if_pos hk]
  · have hchne : electrodeChannels es info ≠ [] := by
      rw [electrodeChannels]
      simpa using hk
    rw [if_neg hchne, electrodeChannels_pyGetList es info, if_neg hk]

/-- Claim C4: with a non-empty electrodes request, resolution ignores the
channels argument and the in-file channel count entirely; it raises the
ValueError naming the originally requested electrode values exactly when
no requested electrode id occurs in the file, and otherwise returns the
surviving electrodes in request order, each mapped to the first in-file
channel index carrying it, with the parallel ChannelInfo entries, whose
electrode ids are the surviving electrodes themselves. -/
theorem electrode_selection_resolution (cha : Option (List ℤ)) (es : List ℤ)
    (n n2 : ℕ) (info : List ChannelInfo) (hne : es ≠ []) :
    (validate_sel_channels cha (some es) n info
        = validate_sel_channels none (some es) n2 info)
    ∧ (validate_sel_channels cha (some es) n info = .error (.valueError es)
        ↔ ∀ e ∈ es, e ∉ electrodesInFile info)
    ∧ ((∃ e ∈ es, e ∈ electrodesInFile info) →
        validate_sel_channels cha (some es) n info =
          .ok (electrodeChannels es info, keptElectrodes es info,
            (keptElectrodes es info).map
              (fun e => info.getD ((electrodesInFile info).indexOf e) default)))
    ∧ (∀ e ∈ keptElectrodes es info,
        (info.getD ((electrodesInFile info).indexOf e) default).electrode_id = e) := by
  have hknil : keptElectrodes es info = [] ↔ ∀ e ∈ es, e ∉ electrodesInFile info := by
    rw [keptElectrodes]
    constructor
    · intro h e he hmem
      have : e ∈ List.filter (fun e => decide (e ∈ electrodesInFile info)) es :=
        List.mem_filter.mpr ⟨he, by simpa using hmem⟩
      rw [h] at this
      exact (List.not_mem_nil e) this
    · intro h
      apply List.filter_eq_nil_iff.mpr
      intro e he
      simpa using h e he
  refine ⟨?_, ?_, ?_, ?_⟩
  · rw [validate_electrodes_eval cha es n info hne,
      validate_electrodes_eval none es n2 info hne]
  · rw [validate_electrodes_eval cha es n info hne]
    by_cases hk : keptElectrodes es info = []
    · rw [if_pos hk]
      exact Iff.intro (fun _ => hknil.mp hk) (fun _ => rfl)
    · rw [if_neg hk]
      constructor
      · intro h; exact absurd h (by simp)
      · intro h; exact absurd (hknil.mpr h) hk
  · intro hex
    have hkne : keptElectrodes es info ≠ [] := by
      intro hnil
      rcases hex with ⟨e, he, hmem⟩
      exact (hknil.mp hnil) e he hmem
    rw [validate_electrodes_eval cha es n info hne, if_neg hkne]
  · intro e he
    set k := (electrodesInFile info).indexOf e with hk
    have h1 : k < (electrodesInFile info).length := by
      rw [hk]; exact List.indexOf_lt_length.mpr (keptElectrodes_mem he)
    have h3 : k < info.length := by rw [hk]; exact keptElectrodes_indexOf_lt he
    rw [List.getD_eq_getElem _ _ h3]
    have h2 : (electrodesInFile info)[k] = e := List.getElem_indexOf h1
    have h4 : (electrodesInFile info)[k] = (info[k]).electrode_id := by
      simp [electrodesInFile]
    rw [h4] at h2
    exact h2

/-- A concrete three-channel file layout used to instantiate the channel
resolution theorems. -/
def infoA : List ChannelInfo := [⟨1, "chanA"⟩, ⟨5, "chanB"⟩, ⟨7, "chanC"⟩]

theorem electrode_selection_resolution_witness :
    (([7, 2, 1] : List ℤ) ≠ []) ∧
    ((validate_sel_channels (some [0]) (some [7, 2, 1]) 3 infoA
        = validate_sel_channels none (some [7, 2, 1]) 99 infoA)
    ∧ (validate_sel_channels (some [0]) (some [7, 2, 1]) 3 infoA
          = .error (.valueError [7, 2, 1])
        ↔ ∀ e ∈ ([7, 2, 1] : List ℤ), e ∉ electrodesInFile infoA)
    ∧ ((∃ e ∈ ([7, 2, 1] : List ℤ), e ∈ electrodesInFile infoA) →
        validate_sel_channels (some [0]) (some [7, 2, 1]) 3 infoA =
          .ok (electrodeChannels [7, 2, 1] infoA, keptElectrodes [7, 2, 1] infoA,
            (keptElectrodes [7, 2, 1] infoA).map
              (fun e => infoA.getD ((electrodesInFile infoA).indexOf e) default)))
    ∧ (∀ e ∈ keptElectrodes [7, 2, 1] infoA,
        (infoA.getD ((electrodesInFile infoA).indexOf e) default).electrode_id = e)) :=
  ⟨by decide, electrode_selection_resolution (some [0]) [7, 2, 1] 3 99 infoA (by decide)⟩

/-- Claim C10: with no electrodes given, channel resolution drops only the
requested indices that are at least the in-file channel count; a negative
index c with -n less-or-equal c < 0 survives the filter and is resolved,
through Python negative-subscript wraparound, to the electrode id of
in-file channel n + c. -/
theorem negative_channel_index_wraparound (cs : List ℤ) (info : List ChannelInfo)
    (c : ℤ) (hmem : c ∈ cs) (hneg : c < 0)
    (hlo : ∀ x ∈ cs, -(info.length : ℤ) ≤ x) :
    (validate_sel_channels (some cs) none info.length info =
      .ok (cs.filter (fun x => decide (x < (info.length : ℤ))),
           (cs.filter (fun x => decide (x < (info.length : ℤ)))).map
             (fun x => (info.getD (pyWrapIdx info.length x) default).electrode_id),
           (cs.filter (fun x => decide (x < (info.length : ℤ)))).map
             (fun x => info.getD (pyWrapIdx info.length x) default)))
    ∧ c ∈ cs.filter (fun x => decide (x < (info.length : ℤ)))
    ∧ pyWrapIdx info.length c = (c + info.length).toNat := by
  have hcs : (some cs).getD [] ≠ [] := by
    intro h
    rw [Option.getD_some] at h
    rw [h] at hmem
    exact List.not_mem_nil c hmem
  have hchmem : c ∈ cs.filter (fun x => decide (x < (info.length : ℤ))) :=
    List.mem_filter.mpr ⟨hmem, by
      have : (0 : ℤ) ≤ info.length := Int.ofNat_nonneg _
      simpa using by omega⟩
  have hbound : ∀ i ∈ cs.filter (fun x => decide (x < (info.length : ℤ))),
      -(info.length : ℤ) ≤ i ∧ i < info.length := by
    intro i hi
    have h1 := List.mem_filter.mp hi
    exact ⟨hlo i h1.1, by simpa using h1.2⟩
  have hlist := pyGetList_of_inRange info _ hbound
  have hchne : cs.filter (fun x => decide (x < (info.length : ℤ))) ≠ [] := by
    intro h
    rw [h] at hchmem
    exact List.not_mem_nil c hchmem
  refine ⟨?_, hchmem, ?_⟩
  · rw [validate_sel_channels, if_neg (by simp), if_pos hcs]
    simp only [Option.getD_some]
    simp [hlist, hchne, List.map_map, Function.comp]
  · simp [pyWrapIdx, hneg]

theorem negative_channel_index_wraparound_witness :
    ((-2 : ℤ) ∈ ([-2, 5] : List ℤ)) ∧ ((-2 : ℤ) < 0) ∧
    (∀ x ∈ ([-2, 5] : List ℤ), -(infoA.length : ℤ) ≤ x) ∧
    ((validate_sel_channels (some [-2, 5]) none infoA.length infoA =
      .ok (([-2, 5] : List ℤ).filter (fun x => decide (x < (infoA.length : ℤ))),
           (([-2, 5] : List ℤ).filter (fun x => decide (x < (infoA.length : ℤ)))).map
             (fun x => (infoA.getD (pyWrapIdx infoA.length x) default).electrode_id),
           (([-2, 5] : List ℤ).filter (fun x => decide (x < (infoA.length : ℤ)))).map
             (fun x => infoA.getD (pyWrapIdx infoA.length x) default)))
    ∧ (-2 : ℤ) ∈ ([-2, 5] : List ℤ).filter (fun x => decide (x < (infoA.length : ℤ)))
    ∧ pyWrapIdx infoA.length (-2) = ((-2 : ℤ) + infoA.length).toNat) :=
  ⟨by decide, by decide, by decide,
    negative_channel_index_wraparound [-2, 5] infoA (-2) (by decide) (by decide) (by decide)⟩

/-- int16 wraparound: numpy multiplies the int16 sample matrix by the
Python int direction inside dtype int16, so the result is reduced into
the int16 range (only -32768 times -1 actually wraps). -/
def i16 (z : ℤ) : ℤ := (z + 32768) % 65536 - 32768

/-- Plateau scan of scipy.signal find_peaks (local_maxima_1d): starting at
j, advance while j < imax and x[j] equals the plateau value v.  The fuel
argument bounds the iteration count; imax - j is always enough because the
scan stops at imax. -/
def plAuxF (x : List ℤ) (v : ℤ) (imax : ℕ) : ℕ → ℕ → ℕ
  | 0, j => j
  | fuel + 1, j => if j < imax ∧ x.getD j 0 = v then plAuxF x v imax fuel (j + 1) else j

/-- First index at or after j that either reaches imax or carries a value
different from v (the i_ahead pointer of local_maxima_1d). -/
def plateauEnd (x : List ℤ) (v : ℤ) (imax j : ℕ) : ℕ :=
  plAuxF x v imax (imax - j) j

/-- Main loop of scipy.signal find_peaks (local_maxima_1d), fuel-bounded:
for each i from 1 below imax whose previous sample is smaller, scan the
plateau of equal values ahead; if the next different sample is smaller,
emit the plateau midpoint (left edge + right edge) / 2 and resume after
the plateau, else resume at the next sample. -/
def lmAuxF (x : List ℤ) (imax : ℕ) : ℕ → ℕ → List ℕ
  | 0, _ => []
  | fuel + 1, i =>
    if i < imax then
      if x.getD (i - 1) 0 < x.getD i 0 then
        if x.getD (plateauEnd x (x.getD i 0) imax (i + 1)) 0 < x.getD i 0 then
          (i + (plateauEnd x (x.getD i 0) imax (i + 1) - 1)) / 2
            :: lmAuxF x imax fuel (plateauEnd x (x.getD i 0) imax (i + 1) + 1)
        else lmAuxF x imax fuel (i + 1)
      else lmAuxF x imax fuel (i + 1)
    else []

/-- scipy.signal find_peaks without properties: the indices of all local
maxima (plateau midpoints), scanning i from 1 to x.length - 2. -/
def localMaxima (x : List ℤ) : List ℕ :=
  lmAuxF x (x.length - 1) x.length 1

theorem plAuxF_ge (x : List ℤ) (v : ℤ) (imax : ℕ) :
    ∀ (fuel j : ℕ), j ≤ plAuxF x v imax fuel j := by
  intro fuel
  induction fuel with
  | zero => intro j; simp [plAuxF]
  | succ f ih =>
    intro j
    rw [plAuxF]
    split
    · exact le_trans (by omega) (ih (j + 1))
    · exact le_rfl

theorem plAuxF_le (x : List ℤ) (v : ℤ) (imax : ℕ) :
    ∀ (fuel j : ℕ), j ≤ imax → plAuxF x v imax fuel j ≤ imax := by
  intro fuel
  induction fuel with
  | zero => intro j hj; simpa [plAuxF] using hj
  | succ f ih =>
    intro j hj
    rw [plAuxF]
    split
    · next hc => exact ih (j + 1) (by omega)
    · exact hj

theorem plAuxF_plateau (x : List ℤ) (v : ℤ) (imax : ℕ) :
    ∀ (fuel j k : ℕ), j ≤ k → k < plAuxF x v imax fuel j → x.getD k 0 = v := by
  intro fuel
  induction fuel with
  | zero => intro j k hjk hk; rw [plAuxF] at hk; omega
  | succ f ih =>
    intro j k hjk hk
    rw [plAuxF] at hk
    split at hk
    · next hc =>
      rcases Nat.eq_or_lt_of_le hjk with heq | hlt
      · exact heq ▸ hc.2
      · exact ih (j + 1) k hlt hk
    · omega

theorem plAuxF_stop (x : List ℤ) (v : ℤ) (imax : ℕ) :
    ∀ (fuel j : ℕ), imax ≤ j + fuel →
      ¬ (plAuxF x v imax fuel j < imax ∧ x.getD (plAuxF x v imax fuel j) 0 = v) := by
  intro fuel
  induction fuel with
  | zero => intro j hj; rw [plAuxF]; omega
  | succ f ih =>
    intro j hj
    rw [plAuxF]
    split
    · exact ih (j + 1) (by omega)
    · next hc => exact hc

theorem plAuxF_eq (x : List ℤ) (v : ℤ) (imax : ℕ) :
    ∀ (fuel j e : ℕ), imax ≤ j + fuel → j ≤ e → e ≤ imax →
      (∀ k, j ≤ k → k < e → x.getD k 0 = v) →
      (e = imax ∨ x.getD e 0 ≠ v) → plAuxF x v imax fuel j = e := by
  intro fuel
  induction fuel with
  | zero => intro j e hfuel hje hei _ _; rw [plAuxF]; omega
  | succ f ih =>
    intro j e hfuel hje hei hplat hstop
    by_cases hcond : j < imax ∧ x.getD j 0 = v
    · rw [plAuxF, if_pos hcond]
      have hjlt : j < e := by
        rcases Nat.eq_or_lt_of_le hje with heq | hlt
        · exfalso
          rcases hstop with heq2 | hne
          · omega
          · exact hne (heq ▸ hcond.2)
        · exact hlt
      exact ih (j + 1) e (by omega) (by omega) hei (fun k hk1 hk2 => hplat k (by omega) hk2) hstop
    · rw [plAuxF, if_neg hcond]
      rcases Nat.eq_or_lt_of_le hje with heq | hlt
      · exact heq
      · exfalso
        exact hcond ⟨by omega, hplat j le_rfl hlt⟩

theorem plateauEnd_ge (x : List ℤ) (v : ℤ) (imax j : ℕ) : j ≤ plateauEnd x v imax j :=
  plAuxF_ge x v imax (imax - j) j

theorem plateauEnd_le (x : List ℤ) (v : ℤ) (imax j : ℕ) (h : j ≤ imax) :
    plateauEnd x v imax j ≤ imax :=
  plAuxF_le x v imax (imax - j) j h

theorem plateauEnd_plateau (x : List ℤ) (v : ℤ) (imax j : ℕ) :
    ∀ k, j ≤ k → k < plateauEnd x v imax j → x.getD k 0 = v :=
  plAuxF_plateau x v imax (imax - j) j

theorem plateauEnd_stop (x : List ℤ) (v : ℤ) (imax j : ℕ) :
    ¬ (plateauEnd x v imax j < imax ∧ x.getD (plateauEnd x v imax j) 0 = v) :=
  plAuxF_stop x v imax (imax - j) j (by omega)

theorem plateauEnd_eq (x : List ℤ) (v : ℤ) (imax j e : ℕ) (hje : j ≤ e)
    (hei : e ≤ imax) (hplat : ∀ k, j ≤ k → k < e → x.getD k 0 = v)
    (hstop : e = imax ∨ x.getD e 0 ≠ v) : plateauEnd x v imax j = e :=
  plAuxF_eq x v imax (imax - j) j e (by omega) hje hei hplat hstop

/-- A maximal plateau of equal values that is strictly above both of its
neighbors, entirely inside positions 1 to imax - 1: the shape of peak
that scipy.signal find_peaks reports, at the plateau midpoint. -/
def IsPlateauPeak (x : List ℤ) (imax l r : ℕ) : Prop :=
  1 ≤ l ∧ l ≤ r ∧ r + 1 ≤ imax ∧
  (∀ k, l ≤ k → k ≤ r → x.getD k 0 = x.getD l 0) ∧
  x.getD (l - 1) 0 < x.getD l 0 ∧ x.getD (r + 1) 0 < x.getD l 0

theorem lmAuxF_sound (x : List ℤ) (imax : ℕ) :
    ∀ (fuel i : ℕ), 1 ≤ i → ∀ m ∈ lmAuxF x imax fuel i,
      ∃ l r, i ≤ l ∧ IsPlateauPeak x imax l r ∧ m = (l + r) / 2 := by
  intro fuel
  induction fuel with
  | zero => intro i _ m hm; rw [lmAuxF] at hm; exact absurd hm (List.not_mem_nil m)
  | succ f ih =>
    intro i h1 m hm
    rw [lmAuxF] at hm
    by_cases hi : i < imax
    case neg => rw [if_neg hi] at hm; exact absurd hm (List.not_mem_nil m)
    rw [if_pos hi] at hm
    by_cases hg1 : x.getD (i - 1) 0 < x.getD i 0
    case neg =>
      rw [if_neg hg1] at hm
      rcases ih (i + 1) (by omega) m hm with ⟨l, r, hl, hp, hmv⟩
      exact ⟨l, r, by omega, hp, hmv⟩
    rw [if_pos hg1] at hm
    by_cases hg2 : x.getD (plateauEnd x (x.getD i 0) imax (i + 1)) 0 < x.getD i 0
    case neg =>
      rw [if_neg hg2] at hm
      rcases ih (i + 1) (by omega) m hm with ⟨l, r, hl, hp, hmv⟩
      exact ⟨l, r, by omega, hp, hmv⟩
    rw [if_pos hg2] at hm
    have hiage : i + 1 ≤ plateauEnd x (x.getD i 0) imax (i + 1) :=
      plateauEnd_ge x (x.getD i 0) imax (i + 1)
    have hiale : plateauEnd x (x.getD i 0) imax (i + 1) ≤ imax :=
      plateauEnd_le x (x.getD i 0) imax (i + 1) (by omega)
    rcases List.mem_cons.mp hm with hm1 | hm2
    · refine ⟨i, plateauEnd x (x.getD i 0) imax (i + 1) - 1, le_rfl, ⟨h1, by omega, by omega, ?_, hg1, ?_⟩, ?_⟩
      · intro k hk1 hk2
        rcases Nat.eq_or_lt_of_le hk1 with heq | hlt
        · rw [← heq]
        · exact plateauEnd_plateau x (x.getD i 0) imax (i + 1) k (by omega) (by omega)
      · have heq : plateauEnd x (x.getD i 0) imax (i + 1) - 1 + 1
            = plateauEnd x (x.getD i 0) imax (i + 1) := by omega
        rw [heq]
        exact hg2
      · exact hm1
    · rcases ih (plateauEnd x (x.getD i 0) imax (i + 1) + 1) (by omega) m hm2 with ⟨l, r, hl, hp, hmv⟩
      exact ⟨l, r, by omega, hp, hmv⟩

theorem lmAuxF_complete (x : List ℤ) (imax : ℕ) :
    ∀ (fuel i l r : ℕ), imax ≤ i + fuel → 1 ≤ i → i ≤ l →
      IsPlateauPeak x imax l r → (l + r) / 2 ∈ lmAuxF x imax fuel i := by
  intro fuel
  induction fuel with
  | zero =>
    intro i l r hfuel _ hil hp
    exfalso
    rcases hp with ⟨hl1, hlr, hrimax, _, _, _⟩
    omega
  | succ f ih =>
    intro i l r hfuel h1 hil hp
    obtain ⟨hl1, hlr, hrimax, hplat, hbl, hbr⟩ := hp
    have hi : i < imax := by omega
    rw [lmAuxF, if_pos hi]
    by_cases hieq : i = l
    · subst hieq
      rw [if_pos hbl]
      have hiaeq : plateauEnd x (x.getD i 0) imax (i + 1) = r + 1 := by
        apply plateauEnd_eq x (x.getD i 0) imax (i + 1) (r + 1) (by omega) (by omega)
        · intro k hk1 hk2
          exact hplat k (by omega) (by omega)
        · right
          exact ne_of_lt hbr
      rw [hiaeq]
      have hsub : r + 1 - 1 = r := by omega
      rw [hsub, if_pos hbr]
      exact List.mem_cons_self _ _
    · have hil2 : i < l := lt_of_le_of_ne hil hieq
      by_cases hg1 : x.getD (i - 1) 0 < x.getD i 0
      case neg =>
        rw [if_neg hg1]
        exact ih (i + 1) l r (by omega) (by omega) (by omega) ⟨hl1, hlr, hrimax, hplat, hbl, hbr⟩
      rw [if_pos hg1]
      have hiage : i + 1 ≤ plateauEnd x (x.getD i 0) imax (i + 1) :=
        plateauEnd_ge x (x.getD i 0) imax (i + 1)
      have hplat2 : ∀ k, i + 1 ≤ k → k < plateauEnd x (x.getD i 0) imax (i + 1) →
          x.getD k 0 = x.getD i 0 :=
        plateauEnd_plateau x (x.getD i 0) imax (i + 1)
      by_cases hg2 : x.getD (plateauEnd x (x.getD i 0) imax (i + 1)) 0 < x.getD i 0
      case neg =>
        rw [if_neg hg2]
        exact ih (i + 1) l r (by omega) (by omega) (by omega) ⟨hl1, hlr, hrimax, hplat, hbl, hbr⟩
      rw [if_pos hg2]
      apply List.mem_cons_of_mem
      have hskip : plateauEnd x (x.getD i 0) imax (i + 1) + 1 ≤ l := by
        by_contra hcon
        push_neg at hcon
        have hlia : l ≤ plateauEnd x (x.getD i 0) imax (i + 1) := by omega
        have hxl1 : x.getD (l - 1) 0 = x.getD i 0 := by
          rcases Nat.eq_or_lt_of_le (by omega : i ≤ l - 1) with heq | hlt
          · rw [← heq]
          · exact hplat2 (l - 1) (by omega) (by omega)
        rcases Nat.eq_or_lt_of_le hlia with heq | hlt
        · rw [← heq] at hg2
          rw [hxl1] at hbl
          omega
        · have hxl : x.getD l 0 = x.getD i 0 := hplat2 l (by omega) hlt
          rw [hxl1, hxl] at hbl
          omega
      exact ih (plateauEnd x (x.getD i 0) imax (i + 1) + 1) l r (by omega) (by omega) hskip
        ⟨hl1, hlr, hrimax, hplat, hbl, hbr⟩

theorem localMaxima_mem_iff (x : List ℤ) (m : ℕ) :
    m ∈ localMaxima x ↔
      ∃ l r, IsPlateauPeak x (x.length - 1) l r ∧ m = (l + r) / 2 := by
  constructor
  · intro hm
    rcases lmAuxF_sound x (x.length - 1) x.length 1 le_rfl m hm with ⟨l, r, _, hp, hmv⟩
    exact ⟨l, r, hp, hmv⟩
  · rintro ⟨l, r, hp, rfl⟩
    exact lmAuxF_complete x (x.length - 1) x.length 1 l r (by omega) le_rfl hp.1 hp

/-- Height selection of scipy.signal find_peaks: keep a peak when its
height is at least the minimal height and, when a maximal height is
supplied, at most the maximal height (both comparisons inclusive). -/
def selectByHeight (s : List ℤ) (pks : List ℕ) (hmin : ℚ) (hmax : Option ℚ) : List ℕ :=
  pks.filter (fun i =>
    decide (hmin ≤ ((s.getD i 0 : ℤ) : ℚ)) &&
    match hmax with
    | none => true
    | some m => decide (((s.getD i 0 : ℤ) : ℚ) ≤ m))

/-- Peak detection for one channel (spikedetect.py lines 99-107 plus the
threshold formulas of set_sd, lines 37-39): multiply the channel by the
direction (inside int16), then call find_peaks with
height = threshold * direction, and threshold_reject * direction as the
maximal height when n_sigmas_reject is given. -/
def detectPeaks (x : List ℤ) (d : ℤ) (sd ns : ℚ) (nrej : Option ℚ) : List ℕ :=
  let threshold : ℚ := sd * ns * (d : ℚ)
  let s := x.map (fun v => i16 (d * v))
  match nrej.map (fun m => sd * m * (d : ℚ)) with
  | some tr => selectByHeight s (localMaxima s) (threshold * (d : ℚ)) (some (tr * (d : ℚ)))
  | none => selectByHeight s (localMaxima s) (threshold * (d : ℚ)) none

theorem selectByHeight_mem (s : List ℤ) (hmin : ℚ) (hmax : Option ℚ) (m : ℕ) :
    m ∈ selectByHeight s (localMaxima s) hmin hmax ↔
      (∃ l r, IsPlateauPeak s (s.length - 1) l r ∧ m = (l + r) / 2)
      ∧ hmin ≤ ((s.getD m 0 : ℤ) : ℚ)
      ∧ ∀ M, hmax = some M → ((s.getD m 0 : ℤ) : ℚ) ≤ M := by
  rw [selectByHeight, List.mem_filter, localMaxima_mem_iff]
  cases hmax with
  | none => simp [and_assoc]
  | some M => simp [and_assoc]

theorem detectPeaks_mem (x : List ℤ) (d : ℤ) (sd ns : ℚ) (nrej : Option ℚ)
    (hd : d = 1 ∨ d = -1) (m : ℕ) :
    m ∈ detectPeaks x d sd ns nrej ↔
      ((∃ l r, IsPlateauPeak (x.map (fun v => i16 (d * v))) (x.length - 1) l r
          ∧ m = (l + r) / 2)
        ∧ ns * sd ≤ (((x.map (fun v => i16 (d * v))).getD m 0 : ℤ) : ℚ)
        ∧ ∀ M, nrej = some M →
            (((x.map (fun v => i16 (d * v))).getD m 0 : ℤ) : ℚ) ≤ M * sd) := by
  have hdd : ((d : ℚ)) * (d : ℚ) = 1 := by
    rcases hd with h | h <;> rw [h] <;> norm_num
  have hthr : sd * ns * (d : ℚ) * (d : ℚ) = ns * sd := by
    rw [mul_assoc, hdd, mul_one, mul_comm]
  have hlen : (x.map (fun v => i16 (d * v))).length = x.length := List.length_map x _
  cases nrej with
  | none =>
    rw [show detectPeaks x d sd ns none
        = selectByHeight (x.map (fun v => i16 (d * v)))
            (localMaxima (x.map (fun v => i16 (d * v)))) (sd * ns * (d : ℚ) * (d : ℚ)) none
      from rfl]
    rw [selectByHeight_mem, hthr, hlen]
    simp
  | some M =>
    have hrej : sd * M * (d : ℚ) * (d : ℚ) = M * sd := by
      rw [mul_assoc, hdd, mul_one, mul_comm]
    rw [show detectPeaks x d sd ns (some M)
        = selectByHeight (x.map (fun v => i16 (d * v)))
            (localMaxima (x.map (fun v => i16 (d * v)))) (sd * ns * (d : ℚ) * (d : ℚ))
            (some (sd * M * (d : ℚ) * (d : ℚ)))
      from rfl]
    rw [selectByHeight_mem, hthr, hrej, hlen]
    simp

theorem detectPeaks_bounds (x : List ℤ) (d : ℤ) (sd ns : ℚ) (nrej : Option ℚ)
    (hd : d = 1 ∨ d = -1) : ∀ m ∈ detectPeaks x d sd ns nrej, 1 ≤ m ∧ m + 2 ≤ x.length := by
  intro m hm
  rcases (detectPeaks_mem x d sd ns nrej hd m).mp hm with ⟨⟨l, r, hp, hmv⟩, _, _⟩
  rcases hp with ⟨hl1, hlr, hrimax, _, _, _⟩
  omega

/-- Claim C3, amended: for fixed direction (coerced to 1 or -1),
per-channel sd and sigma multipliers, the detected peak indices are
exactly the floor midpoints (l + r) / 2 of the maximal plateaus of
direction-times-signal that are strictly above both neighbors, subject to
the inclusive height bounds n_sigmas * sd and (when n_sigmas_reject is
set) n_sigmas_reject * sd; the first and last samples are never peaks. -/
theorem detect_peaks_plateau_rule (x : List ℤ) (d : ℤ) (sd ns : ℚ) (nrej : Option ℚ)
    (hd : d = 1 ∨ d = -1) :
    (∀ m, m ∈ detectPeaks x d sd ns nrej ↔
      ((∃ l r, IsPlateauPeak (x.map (fun v => i16 (d * v))) (x.length - 1) l r
          ∧ m = (l + r) / 2)
        ∧ ns * sd ≤ (((x.map (fun v => i16 (d * v))).getD m 0 : ℤ) : ℚ)
        ∧ ∀ M, nrej = some M →
            (((x.map (fun v => i16 (d * v))).getD m 0 : ℤ) : ℚ) ≤ M * sd))
    ∧ ∀ m ∈ detectPeaks x d sd ns nrej, 1 ≤ m ∧ m + 2 ≤ x.length :=
  ⟨detectPeaks_mem x d sd ns nrej hd, detectPeaks_bounds x d sd ns nrej hd⟩

theorem detect_peaks_plateau_rule_witness :
    ((1 : ℤ) = 1 ∨ (1 : ℤ) = -1) ∧
    ((∀ m, m ∈ detectPeaks [0, 2, 1] 1 1 1 none ↔
      ((∃ l r, IsPlateauPeak (([0, 2, 1] : List ℤ).map (fun v => i16 (1 * v)))
            (([0, 2, 1] : List ℤ).length - 1) l r ∧ m = (l + r) / 2)
        ∧ (1 : ℚ) * 1 ≤ (((([0, 2, 1] : List ℤ).map (fun v => i16 (1 * v))).getD m 0 : ℤ) : ℚ)
        ∧ ∀ M, (none : Option ℚ) = some M →
            (((([0, 2, 1] : List ℤ).map (fun v => i16 (1 * v))).getD m 0 : ℤ) : ℚ) ≤ M * 1))
    ∧ ∀ m ∈ detectPeaks [0, 2, 1] 1 1 1 none, 1 ≤ m ∧ m + 2 ≤ ([0, 2, 1] : List ℤ).length) :=
  ⟨Or.inl rfl, detect_peaks_plateau_rule [0, 2, 1] 1 1 1 none (Or.inl rfl)⟩

/-- The peak rule exactly as the specification words it (claim C3): a
strict local maximum of direction times signal, with the tie broken by a
greater-or-equal comparison in the forward direction, subject to the
height bounds, excluding the first and last samples. -/
def specClaimedPeaks (x : List ℤ) (d : ℤ) (sd ns : ℚ) (nrej : Option ℚ) : List ℕ :=
  (List.range x.length).filter (fun i =>
    decide (1 ≤ i) && decide (i + 2 ≤ x.length) &&
    decide ((x.map (fun v => d * v)).getD (i - 1) 0 < (x.map (fun v => d * v)).getD i 0) &&
    decide ((x.map (fun v => d * v)).getD (i + 1) 0 ≤ (x.map (fun v => d * v)).getD i 0) &&
    decide (ns * sd ≤ (((x.map (fun v => d * v)).getD i 0 : ℤ) : ℚ)) &&
    match nrej with
    | none => true
    | some M => decide ((((x.map (fun v => d * v)).getD i 0 : ℤ) : ℚ) ≤ M * sd))

/-- Claim C3, counterexample: on the plateau signal 0, 1, 1, 1, 0 with
direction 1, sd 1 and n_sigmas 1, the code reports the plateau midpoint,
index 2, while the strict-local-maximum rule of the claim (ties broken
toward the earlier sample) picks index 1, so the two sets differ. -/
theorem detect_peaks_plateau_counterexample :
    detectPeaks [0, 1, 1, 1, 0] 1 1 1 none = [2] ∧
    specClaimedPeaks [0, 1, 1, 1, 0] 1 1 1 none = [1] ∧
    ¬ (∀ m, m ∈ detectPeaks [0, 1, 1, 1, 0] 1 1 1 none ↔
        m ∈ specClaimedPeaks [0, 1, 1, 1, 0] 1 1 1 none) := by
  have e1 : detectPeaks [0, 1, 1, 1, 0] 1 1 1 none = [2] := by
    norm_num [detectPeaks, selectByHeight, localMaxima, lmAuxF, plateauEnd, plAuxF, i16]
  have e2 : specClaimedPeaks [0, 1, 1, 1, 0] 1 1 1 none = [1] := by
    norm_num [specClaimedPeaks, i16, List.range_succ]
  refine ⟨e1, e2, fun h => ?_⟩
  have h2 := (h 2).mp (by rw [e1]; exact List.mem_cons_self _ _)
  rw [e2] at h2
  simp at h2

/-- Effective position of a Python slice bound on a list of length n:
negative bounds wrap around by n, then everything is clamped to 0..n. -/
def pySliceIdx (n : ℕ) (i : ℤ) : ℕ :=
  if i < 0 then (if i + n < 0 then 0 else (i + n).toNat)
  else (if i ≤ n then i.toNat else n)

/-- Python slicing l[i:j] with integer bounds. -/
def pySlice (l : List ℤ) (i j : ℤ) : List ℤ :=
  (l.drop (pySliceIdx l.length i)).take (pySliceIdx l.length j - pySliceIdx l.length i)

theorem pySliceIdx_le (n : ℕ) (i : ℤ) : pySliceIdx n i ≤ n := by
  rw [pySliceIdx]
  split_ifs <;> omega

theorem pySlice_length (l : List ℤ) (i j : ℤ) :
    (pySlice l i j).length = pySliceIdx l.length j - pySliceIdx l.length i := by
  rw [pySlice, List.length_take, List.length_drop]
  have hi := pySliceIdx_le l.length i
  have hj := pySliceIdx_le l.length j
  omega

/-- spikedetect.py __validate_waveform (lines 137-144): a waveform is kept
when it has exactly the expected length and, if a return threshold is
configured, some sample at or after the peak crosses back past it (the
comparison is on direction-multiplied int16 values against
threshold_return times direction). -/
def validate_waveform (w : List ℤ) (centerIndex : ℤ) (thrRet : Option ℚ)
    (d : ℤ) (nspw : ℤ) : Bool :=
  if (w.length : ℤ) ≠ nspw then false
  else
    match thrRet with
    | none => true
    | some tr => (pySlice w centerIndex w.length).any
        (fun v => decide (((i16 (d * v) : ℤ) : ℚ) ≤ tr * (d : ℚ)))

/-- np.rint: round to the nearest integer, ties to the even one. -/
def rintQ (q : ℚ) : ℤ :=
  if q - ⌊q⌋ < 1 / 2 then ⌊q⌋
  else if 1 / 2 < q - ⌊q⌋ then ⌊q⌋ + 1
  else if 2 ∣ ⌊q⌋ then ⌊q⌋ else ⌊q⌋ + 1

/-- The waveform extraction loop of find_waveforms (spikedetect.py lines
109-131) for one channel, given the window in integer sample offsets
(w0, w1): slice x[p + w0 : p + w1 + 1] around each detected peak p and
keep the pairs (peak index, waveform) that validate.  The expected length
is n_samples_per_waveform = -w0 + w1 + 1 and the slice center index is
-w0; the return threshold is value * n_sigmas_return * direction from
set_sd. -/
def extractChannel (x : List ℤ) (d : ℤ) (sd ns : ℚ) (nret nrej : Option ℚ)
    (w0 w1 : ℤ) : List (ℕ × List ℤ) :=
  (detectPeaks x d sd ns nrej).filterMap (fun (p : ℕ) =>
    if validate_waveform (pySlice x ((p : ℤ) + w0) ((p : ℤ) + w1 + 1)) (-w0)
        (nret.map (fun m => sd * m * (d : ℚ))) d (-w0 + w1 + 1)
    then some (p, pySlice x ((p : ℤ) + w0) ((p : ℤ) + w1 + 1)) else none)

/-- find_waveforms for one channel (spikedetect.py lines 89-131): convert
the millisecond window to integer sample offsets through np.rint, detect
peaks and extract the validated waveforms. -/
def find_waveforms_channel (x : List ℤ) (d : ℤ) (sd ns : ℚ) (nret nrej : Option ℚ)
    (window : ℚ × ℚ) (sr : ℚ) : List (ℕ × List ℤ) :=
  extractChannel x d sd ns nret nrej (rintQ (window.1 * sr / 1000))
    (rintQ (window.2 * sr / 1000))

theorem validate_waveform_length {w : List ℤ} {ci : ℤ} {tr : Option ℚ} {d : ℤ}
    {nspw : ℤ} (h : validate_waveform w ci tr d nspw = true) : (w.length : ℤ) = nspw := by
  by_contra hne
  rw [validate_waveform.eq_def, if_pos hne] at h
  exact Bool.false_ne_true h

theorem validate_waveform_mono {w : List ℤ} {ci : ℤ} {tr : ℚ} {d : ℤ} {nspw : ℤ}
    (h : validate_waveform w ci (some tr) d nspw = true) :
    validate_waveform w ci none d nspw = true := by
  have hlen := validate_waveform_length h
  rw [validate_waveform.eq_def, if_neg (fun hh => hh hlen)]

theorem detectPeaks_mem_bounds (x : List ℤ) (d : ℤ) (sd ns : ℚ) (nrej : Option ℚ) :
    ∀ m ∈ detectPeaks x d sd ns nrej, 1 ≤ m ∧ m + 2 ≤ x.length := by
  intro m hm
  have hm2 : m ∈ localMaxima (x.map (fun v => i16 (d * v))) := by
    cases nrej with
    | none => exact List.mem_of_mem_filter hm
    | some M => exact List.mem_of_mem_filter hm
  rcases (localMaxima_mem_iff _ m).mp hm2 with ⟨l, r, ⟨hl1, hlr, hrimax, _, _, _⟩, rfl⟩
  rw [List.length_map] at hrimax
  omega

/-- Claim C6, amended: every extracted waveform has exactly
n_samples_per_waveform = -w0 + w1 + 1 samples, where w0 and w1 are the
millisecond window bounds converted through round(window * sample_rate /
1000); and, provided the integer window is nonempty and its end offset w1
is nonnegative, a candidate peak whose window would reach past either end
of the recording is excluded rather than yielding a short waveform.  (The
w1 restriction is forced: a window lying entirely before the peak has
both slice bounds negative, and Python negative-index wraparound can then
keep a full-length waveform cut from near the end of the recording.) -/
theorem waveform_length_invariant (x : List ℤ) (d : ℤ) (sd ns : ℚ)
    (nret nrej : Option ℚ) (window : ℚ × ℚ) (sr : ℚ)
    (hw : 1 ≤ -(rintQ (window.1 * sr / 1000)) + rintQ (window.2 * sr / 1000) + 1)
    (hw1 : 0 ≤ rintQ (window.2 * sr / 1000)) :
    ∀ pw ∈ find_waveforms_channel x d sd ns nret nrej window sr,
      (pw.2.length : ℤ) = -(rintQ (window.1 * sr / 1000)) + rintQ (window.2 * sr / 1000) + 1
      ∧ 0 ≤ (pw.1 : ℤ) + rintQ (window.1 * sr / 1000)
      ∧ (pw.1 : ℤ) + rintQ (window.2 * sr / 1000) + 1 ≤ x.length := by
  intro pw hpw
  rw [find_waveforms_channel, extractChannel] at hpw
  rcases List.mem_filterMap.mp hpw with ⟨p, hp, hpw2⟩
  have hpb := detectPeaks_mem_bounds x d sd ns nrej p hp
  by_cases hv : validate_waveform
      (pySlice x ((p : ℤ) + rintQ (window.1 * sr / 1000))
        ((p : ℤ) + rintQ (window.2 * sr / 1000) + 1))
      (-(rintQ (window.1 * sr / 1000))) (nret.map (fun m => sd * m * (d : ℚ))) d
      (-(rintQ (window.1 * sr / 1000)) + rintQ (window.2 * sr / 1000) + 1) = true
  case neg =>
    rw [if_neg (fun hh => hv hh)] at hpw2
    exact absurd hpw2 (by simp)
  rw [if_pos hv] at hpw2
  have hpweq : pw = (p, pySlice x ((p : ℤ) + rintQ (window.1 * sr / 1000))
      ((p : ℤ) + rintQ (window.2 * sr / 1000) + 1)) := by
    injection hpw2 with h
    exact h.symm
  subst hpweq
  have hlen := validate_waveform_length hv
  rw [pySlice_length] at hlen
  refine ⟨by rw [pySlice_length]; exact hlen, ?_, ?_⟩
  all_goals
    simp only [pySliceIdx] at hlen
    split_ifs at hlen <;> omega

theorem waveform_length_invariant_witness :
    ((1 ≤ -(rintQ ((-1 / 10 : ℚ) * 30000 / 1000)) + rintQ ((1 / 10 : ℚ) * 30000 / 1000) + 1)
      ∧ 0 ≤ rintQ ((1 / 10 : ℚ) * 30000 / 1000))
    ∧ (∀ pw ∈ find_waveforms_channel [0, 9, 0] 1 1 1 none none (-1 / 10, 1 / 10) 30000,
      (pw.2.length : ℤ)
          = -(rintQ ((-1 / 10 : ℚ) * 30000 / 1000)) + rintQ ((1 / 10 : ℚ) * 30000 / 1000) + 1
      ∧ 0 ≤ (pw.1 : ℤ) + rintQ ((-1 / 10 : ℚ) * 30000 / 1000)
      ∧ (pw.1 : ℤ) + rintQ ((1 / 10 : ℚ) * 30000 / 1000) + 1 ≤ ([0, 9, 0] : List ℤ).length) :=
  ⟨⟨by norm_num [rintQ], by norm_num [rintQ]⟩,
    waveform_length_invariant [0, 9, 0] 1 1 1 none none (-1 / 10, 1 / 10)
      30000 (by norm_num [rintQ]) (by norm_num [rintQ])⟩

/-- Claim C6, counterexample: with the window (-0.4 ms, -0.2 ms) at
30 kHz, that is sample offsets (w0, w1) = (-12, -6) and waveform length
7, the peak at index 2 of a 13-sample recording has both slice bounds
negative; Python wraparound turns x[-10:-3] into samples 3 to 9, a
full-length waveform, so the peak is kept although its window extends
10 samples past the start of the recording. -/
theorem waveform_window_counterexample :
    find_waveforms_channel [0, 0, 9, 0, 1, 2, 3, 4, 5, 6, 7, 8, 0] 1 1 1 none none
        (-4 / 10, -2 / 10) 30000 = [(2, [0, 1, 2, 3, 4, 5, 6])]
    ∧ (2 : ℤ) + rintQ ((-4 / 10 : ℚ) * 30000 / 1000) < 0
    ∧ 1 ≤ -(rintQ ((-4 / 10 : ℚ) * 30000 / 1000)) + rintQ ((-2 / 10 : ℚ) * 30000 / 1000) + 1 := by
  have hw0 : rintQ ((-4 / 10 : ℚ) * 30000 / 1000) = -12 := by norm_num [rintQ]
  have hw1 : rintQ ((-2 / 10 : ℚ) * 30000 / 1000) = -6 := by norm_num [rintQ]
  have hlm : localMaxima (([0, 0, 9, 0, 1, 2, 3, 4, 5, 6, 7, 8, 0] : List ℤ).map
      (fun v => i16 (1 * v))) = [2, 11] := by decide
  have hpeaks : detectPeaks [0, 0, 9, 0, 1, 2, 3, 4, 5, 6, 7, 8, 0] 1 1 1 none = [2, 11] := by
    rw [show detectPeaks [0, 0, 9, 0, 1, 2, 3, 4, 5, 6, 7, 8, 0] 1 1 1 none
        = selectByHeight (([0, 0, 9, 0, 1, 2, 3, 4, 5, 6, 7, 8, 0] : List ℤ).map
            (fun v => i16 (1 * v)))
          (localMaxima (([0, 0, 9, 0, 1, 2, 3, 4, 5, 6, 7, 8, 0] : List ℤ).map
            (fun v => i16 (1 * v))))
          ((1 : ℚ) * 1 * ((1 : ℤ) : ℚ) * ((1 : ℤ) : ℚ)) none from rfl, hlm]
    norm_num [selectByHeight, i16]
  refine ⟨?_, by rw [hw0]; norm_num, by rw [hw0, hw1]; norm_num⟩
  rw [find_waveforms_channel, hw0, hw1, extractChannel, hpeaks]
  decide

/-- Claim C7: with every other parameter fixed, enabling the
n_sigmas_return filter yields a sublist of the waveform list obtained
with the filter disabled: the count never increases and every retained
(sample index, waveform) pair is identical in content to its counterpart
in the unfiltered run. -/
theorem return_filter_monotone (x : List ℤ) (d : ℤ) (sd ns : ℚ) (nrej : Option ℚ)
    (rret : ℚ) (window : ℚ × ℚ) (sr : ℚ) :
    List.Sublist (find_waveforms_channel x d sd ns (some rret) nrej window sr)
        (find_waveforms_channel x d sd ns none nrej window sr)
    ∧ (find_waveforms_channel x d sd ns (some rret) nrej window sr).length
        ≤ (find_waveforms_channel x d sd ns none nrej window sr).length
    ∧ ∀ pw ∈ find_waveforms_channel x d sd ns (some rret) nrej window sr,
        pw ∈ find_waveforms_channel x d sd ns none nrej window sr := by
  have hsub : List.Sublist (find_waveforms_channel x d sd ns (some rret) nrej window sr)
      (find_waveforms_channel x d sd ns none nrej window sr) := by
    rw [find_waveforms_channel, find_waveforms_channel, extractChannel, extractChannel]
    generalize rintQ (window.1 * sr / 1000) = w0
    generalize rintQ (window.2 * sr / 1000) = w1
    generalize detectPeaks x d sd ns nrej = ps
    induction ps with
    | nil => simp
    | cons p ps ih =>
      rw [List.filterMap_cons, List.filterMap_cons]
      by_cases h1 : validate_waveform (pySlice x ((p : ℤ) + w0) ((p : ℤ) + w1 + 1)) (-w0)
          ((some rret).map (fun m => sd * m * (d : ℚ))) d (-w0 + w1 + 1) = true
      · have h2 : validate_waveform (pySlice x ((p : ℤ) + w0) ((p : ℤ) + w1 + 1)) (-w0)
            ((none : Option ℚ).map (fun m => sd * m * (d : ℚ))) d (-w0 + w1 + 1) = true :=
          validate_waveform_mono h1
        rw [if_pos h1, if_pos h2]
        exact List.Sublist.cons₂ _ ih
      · rw [if_neg (fun hh => h1 hh)]
        by_cases h2 : validate_waveform (pySlice x ((p : ℤ) + w0) ((p : ℤ) + w1 + 1)) (-w0)
            ((none : Option ℚ).map (fun m => sd * m * (d : ℚ))) d (-w0 + w1 + 1) = true
        · rw [if_pos h2]
          exact List.Sublist.cons _ ih
        · rw [if_neg (fun hh => h2 hh)]
          exact ih
  exact ⟨hsub, hsub.length_le, fun pw hpw => hsub.mem hpw⟩

/-- One row of the strided gather path of _read_next_packet
(continuousdata.py lines 330-337), in int16-word units: for each selected
channel, seek forward by (channel - cursor) words from the current
position, read one word, and advance the cursor past that channel.
Returns the row and the final (position, cursor). -/
def gatherRow (mem : ℤ → ℤ) : List ℕ → ℤ → ℤ → List ℤ × ℤ × ℤ
  | [], pos, cur => ([], pos, cur)
  | c :: rest, pos, cur =>
    let pos2 := pos + ((c : ℤ) - cur)
    let r := gatherRow mem rest (pos2 + 1) ((c : ℤ) + 1)
    (mem pos2 :: r.1, r.2)

/-- The per-sample loop of the gather path (continuousdata.py lines
331-339): after each row, seek past the remaining unread channels
(n_channels_in_file - cursor words) and reset the cursor. -/
def gatherRows (mem : ℤ → ℤ) (chans : List ℕ) (n : ℕ) : ℕ → ℤ → List (List ℤ)
  | 0, _ => []
  | ns + 1, pos =>
    let r := gatherRow mem chans pos 0
    r.1 :: gatherRows mem chans n ns (r.2.1 + ((n : ℤ) - r.2.2))

/-- _read_next_packet (continuousdata.py lines 315-340) over an abstract
int16-word memory: when the selected channels are as many as the in-file
channels, one bulk read of n_samples * n_channels consecutive words
reshaped row-major; otherwise the strided gather path. -/
def read_next_packet (mem : ℤ → ℤ) (packetStart : ℤ) (chans : List ℕ)
    (nsamp n : ℕ) : List (List ℤ) :=
  if chans.length = n then
    (List.range nsamp).map (fun i =>
      (List.range n).map (fun j => mem (packetStart + ((i * n + j : ℕ) : ℤ))))
  else gatherRows mem chans n nsamp packetStart

theorem gatherRow_spec (mem : ℤ → ℤ) :
    ∀ (chans : List ℕ) (pos cur : ℤ),
      (gatherRow mem chans pos cur).1
        = chans.map (fun (c : ℕ) => mem (pos - cur + (c : ℤ)))
      ∧ (gatherRow mem chans pos cur).2.1 - (gatherRow mem chans pos cur).2.2
          = pos - cur := by
  intro chans
  induction chans with
  | nil => intro pos cur; simp [gatherRow]
  | cons c rest ih =>
    intro pos cur
    obtain ⟨ih1, ih2⟩ := ih (pos + ((c : ℤ) - cur) + 1) ((c : ℤ) + 1)
    constructor
    · show mem (pos + ((c : ℤ) - cur))
          :: (gatherRow mem rest (pos + ((c : ℤ) - cur) + 1) ((c : ℤ) + 1)).1
        = (c :: rest).map (fun (k : ℕ) => mem (pos - cur + (k : ℤ)))
      rw [List.map_cons, ih1]
      congr 1
      · exact congrArg mem (by ring)
      · apply List.map_congr_left
        intro k _
        exact congrArg mem (by ring)
    · show (gatherRow mem rest (pos + ((c : ℤ) - cur) + 1) ((c : ℤ) + 1)).2.1
          - (gatherRow mem rest (pos + ((c : ℤ) - cur) + 1) ((c : ℤ) + 1)).2.2
        = pos - cur
      rw [ih2]
      ring

theorem gatherRows_spec (mem : ℤ → ℤ) (chans : List ℕ) (n : ℕ) :
    ∀ (ns : ℕ) (pos : ℤ),
      gatherRows mem chans n ns pos
        = (List.range ns).map (fun (i : ℕ) =>
            chans.map (fun (c : ℕ) => mem (pos + (i : ℤ) * n + (c : ℤ)))) := by
  intro ns
  induction ns with
  | zero => intro pos; simp [gatherRows]
  | succ m ih =>
    intro pos
    obtain ⟨h1, h2⟩ := gatherRow_spec mem chans pos 0
    show (gatherRow mem chans pos 0).1
        :: gatherRows mem chans n m
            ((gatherRow mem chans pos 0).2.1 + ((n : ℤ) - (gatherRow mem chans pos 0).2.2))
      = _
    have hpos : (gatherRow mem chans pos 0).2.1
        + ((n : ℤ) - (gatherRow mem chans pos 0).2.2) = pos + n := by omega
    rw [h1, hpos, ih (pos + (n : ℤ)), List.range_succ_eq_map, List.map_cons, List.map_map]
    congr 1
    · apply List.map_congr_left
      intro c _
      exact congrArg mem (by push_cast; ring)
    · apply List.map_congr_left
      intro i _
      apply List.map_congr_left
      intro c _
      exact congrArg mem (by push_cast; ring)

/-- Claim C5: over any packet, the int16 matrix produced by the strided
gather path for a proper subset of the in-file channels, in resolved
(ascending) order, equals column for column the corresponding columns of
the matrix the full-channel bulk-read path produces for the same packet
and sample count. -/
theorem gather_matches_bulk (mem : ℤ → ℤ) (start : ℤ) (chans : List ℕ)
    (nsamp n : ℕ) (hsorted : List.Chain' (· < ·) chans)
    (hlt : ∀ c ∈ chans, c < n) (hproper : chans.length ≠ n) :
    ∀ i j, i < nsamp → j < chans.length →
      ((read_next_packet mem start chans nsamp n).getD i []).getD j 0
        = ((read_next_packet mem start (List.range n) nsamp n).getD i []).getD
            (chans.getD j 0) 0 := by
  intro i j hi hj
  have hgather : read_next_packet mem start chans nsamp n
      = (List.range nsamp).map (fun (i2 : ℕ) =>
          chans.map (fun (c : ℕ) => mem (start + (i2 : ℤ) * n + (c : ℤ)))) := by
    rw [read_next_packet, if_neg hproper]
    exact gatherRows_spec mem chans n nsamp start
  have hbulk : read_next_packet mem start (List.range n) nsamp n
      = (List.range nsamp).map (fun i2 =>
          (List.range n).map (fun j2 => mem (start + ((i2 * n + j2 : ℕ) : ℤ)))) := by
    rw [read_next_packet, if_pos (List.length_range n)]
  have hcj : chans.getD j 0 = chans[j] := List.getD_eq_getElem chans 0 hj
  have hcjn : chans[j] < n := hlt _ (List.getElem_mem hj)
  rw [hgather, hbulk]
  have hrow1 : ((List.range nsamp).map (fun (i2 : ℕ) =>
      chans.map (fun (c : ℕ) => mem (start + (i2 : ℤ) * n + (c : ℤ))))).getD i []
      = chans.map (fun (c : ℕ) => mem (start + (i : ℤ) * n + (c : ℤ))) := by
    rw [List.getD_eq_getElem?_getD, List.getElem?_map, List.getElem?_range hi]
    rfl
  have hrow2 : ((List.range nsamp).map (fun i2 =>
      (List.range n).map (fun j2 => mem (start + ((i2 * n + j2 : ℕ) : ℤ))))).getD i []
      = (List.range n).map (fun j2 => mem (start + ((i * n + j2 : ℕ) : ℤ))) := by
    rw [List.getD_eq_getElem?_getD, List.getElem?_map, List.getElem?_range hi]
    rfl
  rw [hrow1, hrow2]
  have hc1 : (chans.map (fun (c : ℕ) => mem (start + (i : ℤ) * n + (c : ℤ)))).getD j 0
      = mem (start + (i : ℤ) * n + (chans[j] : ℤ)) := by
    rw [List.getD_eq_getElem?_getD, List.getElem?_map, List.getElem?_eq_getElem hj]
    rfl
  have hc2 : ((List.range n).map (fun j2 => mem (start + ((i * n + j2 : ℕ) : ℤ)))).getD
      (chans.getD j 0) 0 = mem (start + ((i * n + chans[j] : ℕ) : ℤ)) := by
    rw [hcj, List.getD_eq_getElem?_getD, List.getElem?_map, List.getElem?_range hcjn]
    rfl
  rw [hc1, hc2]
  exact congrArg mem (by push_cast; ring)

theorem gather_matches_bulk_witness :
    List.Chain' (· < ·) [0, 2] ∧ (∀ c ∈ ([0, 2] : List ℕ), c < 3) ∧ (([0, 2] : List ℕ).length ≠ 3) ∧
    (∀ i j, i < 2 → j < ([0, 2] : List ℕ).length →
      ((read_next_packet (fun z => z) 100 [0, 2] 2 3).getD i []).getD j 0
        = ((read_next_packet (fun z => z) 100 (List.range 3) 2 3).getD i []).getD
            (([0, 2] : List ℕ).getD j 0) 0) :=
  ⟨by simp [List.chain'_cons], by decide, by decide,
    gather_matches_bulk (fun z => z) 100 [0, 2] 2 3 (by simp [List.chain'_cons])
      (by decide) (by decide)⟩

/-- np.median of a one-dimensional array: sort, then take the middle
element for odd length, or the mean of the two middle elements for even
length.  (The sorting algorithm is irrelevant: the order is total, so any
sort yields the same sorted list.) -/
def npMedian (l : List ℚ) : ℚ :=
  let s := l.insertionSort (· ≤ ·)
  if l.length % 2 = 1 then s.getD (l.length / 2) 0
  else (s.getD (l.length / 2 - 1) 0 + s.getD (l.length / 2) 0) / 2

/-- Column c of a sample matrix stored as a list of rows. -/
def column (x : List (List ℚ)) (c : ℕ) : List ℚ :=
  x.map (fun row => row.getD c 0)

/-- estimate_sd (spikedetect.py lines 44-57), following the vectorized
numpy expression np.median(np.abs(data - np.median(data, axis=0)),
axis=0) / 0.6745: the per-column medians are broadcast and subtracted
row by row, the absolute deviations taken elementwise, and the
per-column medians of those divided by 0.6745. -/
def estimate_sd (x : List (List ℚ)) (ncols : ℕ) : List ℚ :=
  let meds := (List.range ncols).map (fun c => npMedian (column x c))
  let dev := x.map (fun row => List.zipWith (fun a m => |a - m|) row meds)
  (List.range ncols).map (fun c => npMedian (column dev c) / (6745 / 10000))

/-- Claim C8: for a rectangular sample matrix, entry c of estimate_sd is
median(|x[:,c] - median(x[:,c])|) / 0.6745, the per-channel median
absolute deviation over all supplied samples scaled by 1 / 0.6745. -/
theorem estimate_sd_is_mad (x : List (List ℚ)) (ncols c : ℕ)
    (hrect : ∀ row ∈ x, row.length = ncols) (hc : c < ncols) :
    (estimate_sd x ncols).getD c 0
      = npMedian ((column x c).map (fun v => |v - npMedian (column x c)|))
          / (6745 / 10000) := by
  have hget : (estimate_sd x ncols).getD c 0
      = npMedian (column (x.map (fun row => List.zipWith (fun a m => |a - m|) row
          ((List.range ncols).map (fun c2 => npMedian (column x c2))))) c)
        / (6745 / 10000) := by
    rw [estimate_sd, List.getD_eq_getElem?_getD, List.getElem?_map, List.getElem?_range hc]
    rfl
  rw [hget]
  congr 2
  rw [column, List.map_map, column, List.map_map]
  apply List.map_congr_left
  intro row hrow
  have hrl : row.length = ncols := hrect row hrow
  have hml : ((List.range ncols).map (fun c2 => npMedian (column x c2))).length = ncols := by
    simp
  have hzl : c < (List.zipWith (fun a m => |a - m|) row
      ((List.range ncols).map (fun c2 => npMedian (column x c2)))).length := by
    rw [List.length_zipWith, hrl, hml, Nat.min_self]
    exact hc
  show (List.zipWith (fun a m => |a - m|) row
      ((List.range ncols).map (fun c2 => npMedian (column x c2)))).getD c 0
    = |row.getD c 0 - npMedian (column x c)|
  rw [List.getD_eq_getElem _ _ hzl, List.getElem_zipWith]
  congr 1
  have h2 : c < row.length := by omega
  rw [List.getElem_map, List.getElem_range, List.getD_eq_getElem row 0 h2]

theorem estimate_sd_is_mad_witness :
    (∀ row ∈ ([[1, 10], [3, 20], [7, 90]] : List (List ℚ)), row.length = 2) ∧ 0 < 2 ∧
    ((estimate_sd [[1, 10], [3, 20], [7, 90]] 2).getD 0 0
      = npMedian ((column [[1, 10], [3, 20], [7, 90]] 0).map
          (fun v => |v - npMedian (column [[1, 10], [3, 20], [7, 90]] 0)|))
          / (6745 / 10000)) :=
  ⟨by decide, by decide,
    estimate_sd_is_mad [[1, 10], [3, 20], [7, 90]] 2 0 (by decide) (by decide)⟩

/-- SpikeDetectConfig (spikedetect.py lines 8-41).  Python attributes are
dynamically typed: each threshold attribute holds either a float or None
at runtime, modelled as Option ℚ.  set_sd only ever stores a float (a
some value) into threshold, including 0.0 when sd is None. -/
structure SpikeDetectConfig where
  direction : ℤ
  n_sigmas : ℚ
  n_sigmas_return : Option ℚ
  n_sigmas_reject : Option ℚ
  waveform_window : ℚ × ℚ
  sd : Option ℚ
  threshold : Option ℚ
  threshold_return : Option ℚ
  threshold_reject : Option ℚ
deriving DecidableEq, Repr

/-- SpikeDetectConfig.set_sd (spikedetect.py lines 29-41): store sd and
derive the thresholds; sd = None resets threshold to the float 0.0 and
the return and reject thresholds to None; otherwise each threshold is
value * multiplier * direction, with None multipliers giving None. -/
def set_sd (cfg : SpikeDetectConfig) (value : Option ℚ) : SpikeDetectConfig :=
  match value with
  | none =>
    { cfg with
      sd := none
      threshold := some 0
      threshold_return := none
      threshold_reject := none }
  | some v =>
    { cfg with
      sd := some v
      threshold := some (v * cfg.n_sigmas * (cfg.direction : ℚ))
      threshold_return := cfg.n_sigmas_return.map (fun m => v * m * (cfg.direction : ℚ))
      threshold_reject := cfg.n_sigmas_reject.map (fun m => v * m * (cfg.direction : ℚ)) }

/-- The configuration built by SpikeDetectConfig with its default
arguments: direction -1, n_sigmas 3, n_sigmas_return 1.5,
n_sigmas_reject 40, window (-0.5 ms, 0.5 ms), sd None. -/
def defaultConfig : SpikeDetectConfig :=
  set_sd
    { direction := -1
      n_sigmas := 3
      n_sigmas_return := some (3 / 2)
      n_sigmas_reject := some 40
      waveform_window := (-1 / 2, 1 / 2)
      sd := none
      threshold := some 0
      threshold_return := none
      threshold_reject := none } none

/-- Claim C9, amended: when sd is present, threshold equals
sd * n_sigmas * direction and the return and reject thresholds follow the
same formula with their multipliers, a None multiplier giving a None
threshold; but when sd is None, threshold is set to the float 0.0 (not
None) while threshold_return and threshold_reject are set to None. -/
theorem set_sd_thresholds (cfg : SpikeDetectConfig) :
    (∀ v : ℚ,
      (set_sd cfg (some v)).threshold = some (v * cfg.n_sigmas * (cfg.direction : ℚ))
      ∧ (∀ m, cfg.n_sigmas_return = some m →
          (set_sd cfg (some v)).threshold_return = some (v * m * (cfg.direction : ℚ)))
      ∧ (cfg.n_sigmas_return = none → (set_sd cfg (some v)).threshold_return = none)
      ∧ (∀ m, cfg.n_sigmas_reject = some m →
          (set_sd cfg (some v)).threshold_reject = some (v * m * (cfg.direction : ℚ)))
      ∧ (cfg.n_sigmas_reject = none → (set_sd cfg (some v)).threshold_reject = none))
    ∧ ((set_sd cfg none).sd = none
      ∧ (set_sd cfg none).threshold = some 0
      ∧ (set_sd cfg none).threshold_return = none
      ∧ (set_sd cfg none).threshold_reject = none) := by
  refine ⟨fun v => ⟨rfl, ?_, ?_, ?_, ?_⟩, rfl, rfl, rfl, rfl⟩
  · intro m hm
    simp [set_sd, hm]
  · intro hm
    simp [set_sd, hm]
  · intro m hm
    simp [set_sd, hm]
  · intro hm
    simp [set_sd, hm]

/-- Claim C9, counterexample: setting sd to None on the default
configuration leaves threshold holding the float 0.0, not None, even
though threshold_return and threshold_reject do become None: the None
input does not propagate to the threshold attribute. -/
theorem set_sd_none_threshold_counterexample :
    (set_sd defaultConfig none).sd = none
    ∧ (set_sd defaultConfig none).threshold = some 0
    ∧ (set_sd defaultConfig none).threshold ≠ none := by
  refine ⟨rfl, rfl, ?_⟩
  intro h
  rw [show (set_sd defaultConfig none).threshold = some 0 from rfl] at h
  exact Option.noConfusion h

end SpikeSorting
